import Mathlib

/-!
Verification of the espeakup work queue and synthesis runner (src/queue.c).

The C code is shallowly embedded.  Heap-allocated `struct queue_entry_t`
nodes live in an association list keyed by allocation address; the two
file-static pointers `first` (append end) and `last` (consume end) are
optional addresses, `none` standing for NULL.  Calls to `free` are logged in
the state so that release-exactly-once properties can be stated, and calls
into the espeak engine are recorded as events.
-/

set_option autoImplicit false

namespace Espeakup

/-- Command kinds stored in `entry->cmd`.  The seven named values are the
ones `queue_process_entry` distinguishes; `other` stands for any further
value of the command enum, which falls into the switch's `default` branch. -/
inductive Cmd
  | setFrequency | setPitch | setPunctuation | setRate
  | setVoice | setVolume | speakText | other
deriving DecidableEq

/-- Adjustment mode passed to the parameter setters (`ADJ_SET` absolute,
`ADJ_INC` / `ADJ_DEC` relative). -/
inductive Adjust
  | set | inc | dec
deriving DecidableEq

/-- One queue entry: the payload of `struct queue_entry_t` apart from its
`next` link.  The text buffer of a `CMD_SPEAK_TEXT` entry is named by an
identifier (`buf`) together with its length. -/
structure Entry where
  cmd : Cmd
  value : Int
  adjust : Adjust
  buf : Nat
  len : Nat
deriving DecidableEq

/-- A heap node: the entry stored at some address plus its `next` pointer
(the `next` field of `struct queue_entry_t`). -/
structure Node where
  entry : Entry
  next : Option Nat
deriving DecidableEq

/-- The queue state: the file-static data of queue.c plus a log of the
memory released so far.  `mem` maps live addresses to nodes, `last` is the
head from which `queue_remove` consumes, `first` is the end at which
`queue_add` appends.  `nextAddr` models the allocator: producer entries are
fresh allocations, so each carries a previously unused address.
`freedEntries` records, in order, the addresses passed to `free(entry)`,
`freedBufs` the buffer identifiers passed to `free(entry->buf)`, and
`removedEntries` the entry values handed to `free_entry`, in order. -/
structure QState where
  mem : List (Nat × Node)
  last : Option Nat
  first : Option Nat
  nextAddr : Nat
  freedEntries : List Nat
  freedBufs : List Nat
  removedEntries : List Entry
deriving DecidableEq

/-- Initial state: `first = last = NULL`, nothing allocated, nothing freed. -/
def initQ : QState :=
  { mem := [], last := none, first := none, nextAddr := 0,
    freedEntries := [], freedBufs := [], removedEntries := [] }

/-- Heap read at an address. -/
def lookupNode : List (Nat × Node) → Nat → Option Node
  | [], _ => none
  | (k, n) :: rest, a => if k = a then some n else lookupNode rest a

/-- Heap write of the `next` field of the node at address `a`. -/
def setNext : List (Nat × Node) → Nat → Option Nat → List (Nat × Node)
  | [], _, _ => []
  | (k, n) :: rest, a, p =>
      if k = a then (k, { n with next := p }) :: rest
      else (k, n) :: setNext rest a p

/-- Deallocate the node at address `a`. -/
def eraseAddr : List (Nat × Node) → Nat → List (Nat × Node)
  | [], _ => []
  | (k, n) :: rest, a => if k = a then rest else (k, n) :: eraseAddr rest a

/-- `queue_add` (queue.c lines 44-59).  The caller passes a freshly
allocated entry, modelled by storing `e` at the fresh address `s.nextAddr`.
The code sets `entry->next = NULL`, then makes `last` point at the entry if
`last` was NULL, and either initializes `first` or links the entry after the
current `first` node and advances `first` to it (`first->next = entry;
first = first->next`). -/
def queue_add (s : QState) (e : Entry) : QState :=
  let a := s.nextAddr
  let mem1 := (a, Node.mk e none) :: s.mem
  let last1 := if s.last = none then some a else s.last
  match s.first with
  | none =>
      { s with mem := mem1, last := last1, first := some a, nextAddr := a + 1 }
  | some f =>
      { s with mem := setNext mem1 f (some a), last := last1, first := some a,
               nextAddr := a + 1 }

/-- The buffers released by `free_entry` (queue.c lines 61-66): the payload
buffer is freed exactly when the entry is a `CMD_SPEAK_TEXT` entry; the
entry struct itself is always freed. -/
def free_entry_bufs (e : Entry) : List Nat :=
  if e.cmd = Cmd.speakText then [e.buf] else []

/-- `queue_remove` (queue.c lines 71-82).  If `last` is non-NULL, advance
`last` to `last->next`, set `first` to NULL as well when the queue became
empty, and hand the removed node to `free_entry`.  A NULL `last` is a no-op.
The inner `none` branch (a dangling head pointer) cannot arise from a
well-formed state; it leaves the state unchanged. -/
def queue_remove (s : QState) : QState :=
  match s.last with
  | none => s
  | some t =>
      match lookupNode s.mem t with
      | none => s
      | some node =>
          let last1 := node.next
          let first1 := if last1 = none then none else s.first
          { s with mem := eraseAddr s.mem t, last := last1, first := first1,
                   freedEntries := s.freedEntries ++ [t],
                   freedBufs := s.freedBufs ++ free_entry_bufs node.entry,
                   removedEntries := s.removedEntries ++ [node.entry] }

/-- The loop body of `queue_clear` (queue.c lines 84-93): while `last` is
non-NULL, call `queue_remove`.  The fuel argument only serves Lean's
termination checker; `queue_clear` passes the number of live nodes, which
suffices on every well-formed state. -/
def queue_clear_fuel : Nat → QState → QState
  | 0, s => s
  | n + 1, s =>
      match s.last with
      | none => s
      | some _ => queue_clear_fuel n (queue_remove s)

/-- `queue_clear` (queue.c lines 84-93). -/
def queue_clear (s : QState) : QState :=
  queue_clear_fuel s.mem.length s

/-- `queue_add` as called with a possibly-NULL pointer: the function begins
with `assert(entry)`, so a NULL argument aborts (modelled as `none`) and a
valid argument behaves as `queue_add`. -/
def queue_add_checked (s : QState) (e : Option Entry) : Option QState :=
  match e with
  | none => none
  | some e => some (queue_add s e)

/-- The addresses of an address-annotated entry list. -/
def addrs (l : List (Nat × Entry)) : List Nat := l.map Prod.fst

/-- The entry values of an address-annotated entry list. -/
def entriesOf (l : List (Nat × Entry)) : List Entry := l.map Prod.snd

/-- `Chain mem p l`: starting from pointer `p` and following `next` links
through the heap `mem` visits exactly the addressed entries `l` and ends at
NULL. -/
inductive Chain (mem : List (Nat × Node)) : Option Nat → List (Nat × Entry) → Prop
  | nil : Chain mem none []
  | cons {a : Nat} {e : Entry} {nxt : Option Nat} {rest : List (Nat × Entry)} :
      lookupNode mem a = some (Node.mk e nxt) → Chain mem nxt rest →
      Chain mem (some a) ((a, e) :: rest)

/-- Representation invariant of the queue, relating a state to the abstract
addressed entry list `l` (head to tail in consumption order): the heap
nodes linked from `last` are exactly `l`, the heap holds nothing else,
addresses are distinct and below the allocation counter, `first` points at
the final chain node (NULL when empty), and the free log never contains a
live address nor the same address twice. -/
structure WF (s : QState) (l : List (Nat × Entry)) : Prop where
  chain : Chain s.mem s.last l
  memKeys : s.mem.map Prod.fst = (addrs l).reverse
  nodup : (addrs l).Nodup
  fresh : ∀ a ∈ addrs l, a < s.nextAddr
  firstEq : s.first = (addrs l).getLast?
  freedNodup : s.freedEntries.Nodup
  freedLt : ∀ a ∈ s.freedEntries, a < s.nextAddr
  freedDisj : ∀ a ∈ addrs l, a ∉ s.freedEntries

theorem wf_init : WF initQ [] := by
  refine ⟨Chain.nil, rfl, List.nodup_nil, ?_, rfl, List.nodup_nil, ?_, ?_⟩ <;>
    simp [addrs, initQ]

theorem setNext_keys (mem : List (Nat × Node)) (a : Nat) (p : Option Nat) :
    (setNext mem a p).map Prod.fst = mem.map Prod.fst := by
  induction mem with
  | nil => rfl
  | cons hd tl ih =>
      obtain ⟨k, n⟩ := hd
      by_cases h : k = a <;> simp [setNext, h, ih]

theorem lookupNode_setNext_ne {mem : List (Nat × Node)} {a b : Nat} (p : Option Nat)
    (h : b ≠ a) : lookupNode (setNext mem a p) b = lookupNode mem b := by
  induction mem with
  | nil => rfl
  | cons hd tl ih =>
      obtain ⟨k, n⟩ := hd
      by_cases hk : k = a
      · subst hk
        have hkb : k ≠ b := fun hb => h hb.symm
        simp [setNext, lookupNode, hkb]
      · by_cases hkb : k = b
        · subst hkb
          simp [setNext, lookupNode, hk]
        · simp [setNext, lookupNode, hk, hkb, ih]

theorem lookupNode_setNext_self {mem : List (Nat × Node)} {a : Nat} {n : Node}
    (p : Option Nat) (h : lookupNode mem a = some n) :
    lookupNode (setNext mem a p) a = some (Node.mk n.entry p) := by
  induction mem with
  | nil => simp [lookupNode] at h
  | cons hd tl ih =>
      obtain ⟨k, m⟩ := hd
      by_cases hk : k = a
      · subst hk
        simp [lookupNode] at h
        simp [setNext, lookupNode, h]
      · simp [lookupNode, hk] at h
        simp [setNext, lookupNode, hk, ih h]

theorem lookupNode_eraseAddr_ne {mem : List (Nat × Node)} {a b : Nat}
    (h : b ≠ a) : lookupNode (eraseAddr mem a) b = lookupNode mem b := by
  induction mem with
  | nil => rfl
  | cons hd tl ih =>
      obtain ⟨k, n⟩ := hd
      by_cases hk : k = a
      · subst hk
        have hkb : k ≠ b := fun hb => h hb.symm
        simp [eraseAddr, lookupNode, hkb]
      · by_cases hkb : k = b
        · subst hkb
          simp [eraseAddr, lookupNode, hk]
        · simp [eraseAddr, lookupNode, hk, hkb, ih]

theorem eraseAddr_keys {mem : List (Nat × Node)} {ks : List Nat} {a : Nat}
    (h : mem.map Prod.fst = ks ++ [a]) (ha : a ∉ ks) :
    (eraseAddr mem a).map Prod.fst = ks := by
  induction mem generalizing ks with
  | nil => simp at h
  | cons hd tl ih =>
      obtain ⟨k, n⟩ := hd
      cases ks with
      | nil =>
          rw [List.map_cons, List.nil_append] at h
          injection h with hk htl
          subst hk
          simp [eraseAddr, htl]
      | cons k0 ks0 =>
          rw [List.map_cons, List.cons_append] at h
          injection h with hk htl
          have hk2 : k = k0 := hk
          have hka : k ≠ a := by
            intro hv
            exact ha (Or.inl (hv.symm.trans hk2) |> List.mem_cons.mpr)
          have ha0 : a ∉ ks0 := fun hv => ha (by simp [hv])
          have hka0 : k0 ≠ a := hk2 ▸ hka
          simp [eraseAddr, hka, hka0, ih htl ha0, hk2]

/-- Pointer chains only depend on the heap cells they traverse. -/
theorem Chain.congr {mem mem2 : List (Nat × Node)} {p : Option Nat}
    {l : List (Nat × Entry)} (hc : Chain mem p l)
    (h : ∀ x ∈ l, lookupNode mem2 x.1 = lookupNode mem x.1) : Chain mem2 p l := by
  induction hc with
  | nil => exact Chain.nil
  | @cons a e nxt rest hl hrest ih =>
      refine Chain.cons ?_ (ih fun x hx => h x (List.mem_cons_of_mem _ hx))
      have hh : lookupNode mem2 a = lookupNode mem a := h (a, e) (List.mem_cons_self _ _)
      rw [hh]
      exact hl

theorem Chain.none_nil {mem : List (Nat × Node)} {l : List (Nat × Entry)}
    (h : Chain mem none l) : l = [] := by
  cases h
  rfl

theorem Chain.nil_none {mem : List (Nat × Node)} {p : Option Nat}
    (h : Chain mem p []) : p = none := by
  cases h
  rfl

@[simp] theorem addrs_nil : addrs [] = [] := rfl

@[simp] theorem addrs_cons (x : Nat × Entry) (l : List (Nat × Entry)) :
    addrs (x :: l) = x.1 :: addrs l := rfl

@[simp] theorem addrs_append (l1 l2 : List (Nat × Entry)) :
    addrs (l1 ++ l2) = addrs l1 ++ addrs l2 := List.map_append _ _ _

@[simp] theorem entriesOf_nil : entriesOf [] = [] := rfl

@[simp] theorem entriesOf_cons (x : Nat × Entry) (l : List (Nat × Entry)) :
    entriesOf (x :: l) = x.2 :: entriesOf l := rfl

@[simp] theorem entriesOf_append (l1 l2 : List (Nat × Entry)) :
    entriesOf (l1 ++ l2) = entriesOf l1 ++ entriesOf l2 := List.map_append _ _ _

theorem Chain.head_some {mem : List (Nat × Node)} {a : Nat} {x : Nat × Entry}
    {l : List (Nat × Entry)} (h : Chain mem (some a) (x :: l)) : x.1 = a := by
  cases h
  rfl

theorem Chain.some_ne_nil {mem : List (Nat × Node)} {a : Nat}
    (h : Chain mem (some a) []) : False := by
  cases h

theorem getLast?_some_of_ne_nil {α : Type} {xs : List α} (h : xs ≠ []) :
    ∃ f, xs.getLast? = some f := by
  cases xs with
  | nil => exact absurd rfl h
  | cons x xs => exact ⟨(x :: xs).getLast (by simp), List.getLast?_eq_getLast _ _⟩

theorem mem_of_getLast?_eq {α : Type} {xs : List α} {f : α}
    (h : xs.getLast? = some f) : f ∈ xs :=
  List.mem_of_mem_getLast? (by rw [h]; exact rfl)

theorem getLast?_cons_of_ne_nil {α : Type} {xs : List α} (x : α) (h : xs ≠ []) :
    (x :: xs).getLast? = xs.getLast? := by
  cases xs with
  | nil => exact absurd rfl h
  | cons y ys => exact List.getLast?_cons_cons

/-- Extending a chain at its final node: if the heap changes only by
pointing the final node `f` at a fresh node `a` holding `e`, the chain grows
by one link. -/
theorem Chain.extend {mem mem2 : List (Nat × Node)} {p : Option Nat}
    {l : List (Nat × Entry)} {f a : Nat} {e : Entry}
    (hc : Chain mem p l) (hlast : (addrs l).getLast? = some f)
    (hnd : (addrs l).Nodup)
    (hkeep : ∀ b ∈ addrs l, b ≠ f → lookupNode mem2 b = lookupNode mem b)
    (hset : ∀ n, lookupNode mem f = some n →
      lookupNode mem2 f = some (Node.mk n.entry (some a)))
    (hnew : lookupNode mem2 a = some (Node.mk e none)) :
    Chain mem2 p (l ++ [(a, e)]) := by
  induction hc with
  | nil => simp at hlast
  | @cons b eb nxt rest hl hrest ih =>
      by_cases hr : rest = []
      · subst hr
        have hnxt : nxt = none := hrest.nil_none
        have hbf : b = f := by
          simp at hlast
          exact hlast
        subst hbf
        subst hnxt
        exact Chain.cons (hset _ hl) (Chain.cons hnew Chain.nil)
      · have hrest_ne : addrs rest ≠ [] := by
          cases rest with
          | nil => exact absurd rfl hr
          | cons y ys => simp
        have hlast' : (addrs rest).getLast? = some f := by
          rw [addrs_cons, getLast?_cons_of_ne_nil _ hrest_ne] at hlast
          exact hlast
        have hbmem : b ∉ addrs rest := by
          rw [addrs_cons] at hnd
          exact (List.nodup_cons.mp hnd).1
        have hbf : b ≠ f := fun hv => hbmem (hv ▸ mem_of_getLast?_eq hlast')
        have hnd' : (addrs rest).Nodup := by
          rw [addrs_cons] at hnd
          exact (List.nodup_cons.mp hnd).2
        refine Chain.cons ?_ (ih hlast' hnd'
          (fun x hx hxf => hkeep x (by simp [hx]) hxf))
        have hh : lookupNode mem2 b = lookupNode mem b := hkeep b (by simp) hbf
        rw [hh]
        exact hl

theorem Chain.cons_some {mem : List (Nat × Node)} {p : Option Nat}
    {x : Nat × Entry} {xs : List (Nat × Entry)} (h : Chain mem p (x :: xs)) :
    p = some x.1 := by
  cases h
  rfl

theorem nodup_concat_of {α : Type} {xs : List α} {a : α} (h : xs.Nodup)
    (ha : a ∉ xs) : (xs ++ [a]).Nodup := by
  induction xs with
  | nil => simp
  | cons x xs ih =>
      obtain ⟨hx, hxs⟩ := List.nodup_cons.mp h
      have hax : a ∉ xs := fun hv => ha (List.mem_cons_of_mem _ hv)
      have hxa : x ∉ xs ++ [a] := by
        intro hv
        rcases List.mem_append.mp hv with hv | hv
        · exact hx hv
        · simp at hv
          exact ha (by simp [hv])
      exact List.nodup_cons.mpr ⟨hxa, ih hxs hax⟩

theorem queue_add_empty {s : QState} (hf : s.first = none) (hl : s.last = none)
    (e : Entry) :
    queue_add s e = { s with mem := (s.nextAddr, Node.mk e none) :: s.mem,
                             last := some s.nextAddr, first := some s.nextAddr,
                             nextAddr := s.nextAddr + 1 } := by
  simp [queue_add, hf, hl]

theorem queue_add_nonempty {s : QState} {f : Nat} (hf : s.first = some f)
    (hl : s.last ≠ none) (e : Entry) :
    queue_add s e =
      { s with mem := setNext ((s.nextAddr, Node.mk e none) :: s.mem) f (some s.nextAddr),
               last := s.last, first := some s.nextAddr,
               nextAddr := s.nextAddr + 1 } := by
  simp [queue_add, hf, hl]

/-- `queue_add` preserves the representation invariant and appends exactly
one entry, at a fresh address, at the tail of the abstract queue. -/
theorem wf_add {s : QState} {l : List (Nat × Entry)} (h : WF s l) (e : Entry) :
    WF (queue_add s e) (l ++ [(s.nextAddr, e)]) := by
  obtain ⟨hchain, hkeys, hnd, hfresh, hfirst, hfnd, hflt, hfdj⟩ := h
  have hanotfreed : s.nextAddr ∉ s.freedEntries := fun hv =>
    absurd (hflt _ hv) (by omega)
  cases l with
  | nil =>
      have hlast : s.last = none := hchain.nil_none
      have hmem : s.mem = [] := by
        have : s.mem.map Prod.fst = [] := by rw [hkeys]; rfl
        exact List.map_eq_nil_iff.mp this
      have hfirstn : s.first = none := by rw [hfirst]; rfl
      rw [queue_add_empty hfirstn hlast]
      refine ⟨?_, ?_, ?_, ?_, ?_, hfnd, ?_, ?_⟩
      · exact Chain.cons (by simp [hmem, lookupNode]) Chain.nil
      · simp [hmem]
      · simp
      · intro b hb
        show b < s.nextAddr + 1
        simp at hb
        omega
      · simp
      · intro b hb
        show b < s.nextAddr + 1
        have := hflt b hb
        omega
      · intro b hb
        show b ∉ s.freedEntries
        simp at hb
        subst hb
        exact hanotfreed
  | cons x xs =>
      have hlast : s.last = some x.1 := hchain.cons_some
      have hlast_ne : s.last ≠ none := by rw [hlast]; simp
      have hne : addrs (x :: xs) ≠ [] := by simp
      obtain ⟨f, hf⟩ := getLast?_some_of_ne_nil hne
      have hfirstf : s.first = some f := by rw [hfirst, hf]
      have hfmem : f ∈ addrs (x :: xs) := mem_of_getLast?_eq hf
      have hflt' : f < s.nextAddr := hfresh _ hfmem
      have hfa : f ≠ s.nextAddr := by omega
      rw [queue_add_nonempty hfirstf hlast_ne]
      set a := s.nextAddr with ha
      have hlook_cons : ∀ b, b ≠ a →
          lookupNode ((a, Node.mk e none) :: s.mem) b = lookupNode s.mem b := by
        intro b hb
        have hab : a ≠ b := fun hv => hb hv.symm
        simp [lookupNode, hab]
      refine ⟨?_, ?_, ?_, ?_, ?_, hfnd, ?_, ?_⟩
      · refine Chain.extend hchain hf hnd ?_ ?_ ?_
        · intro b hb hbf
          have hba : b ≠ a := by
            have := hfresh _ hb
            omega
          rw [lookupNode_setNext_ne _ hbf, hlook_cons b hba]
        · intro n hn
          have h1 : lookupNode ((a, Node.mk e none) :: s.mem) f = some n := by
            rw [hlook_cons f hfa]
            exact hn
          exact lookupNode_setNext_self _ h1
        · rw [lookupNode_setNext_ne _ (fun hv => hfa hv.symm)]
          simp [lookupNode]
      · rw [setNext_keys]
        simp [hkeys]
      · have h1 : addrs ((x :: xs) ++ [(a, e)]) = addrs (x :: xs) ++ [a] := by simp
        rw [h1]
        refine nodup_concat_of hnd ?_
        intro hv
        have := hfresh _ hv
        omega
      · intro b hb
        show b < a + 1
        simp only [addrs_append, addrs_cons, addrs_nil] at hb
        rcases List.mem_append.mp hb with hb | hb
        · have := hfresh _ hb
          omega
        · simp at hb
          omega
      · show some a = _
        have h1 : addrs ((x :: xs) ++ [(a, e)]) = (x.1 :: addrs xs) ++ [a] := by simp
        rw [h1, List.getLast?_concat]
      · intro b hb
        show b < a + 1
        have := hflt b hb
        omega
      · intro b hb
        show b ∉ s.freedEntries
        simp only [addrs_append, addrs_cons, addrs_nil] at hb
        rcases List.mem_append.mp hb with hb | hb
        · exact hfdj _ hb
        · simp at hb
          subst hb
          exact hanotfreed

theorem wf_remove_nil {s : QState} (h : WF s []) : queue_remove s = s := by
  have hlast : s.last = none := h.chain.nil_none
  simp [queue_remove, hlast]

theorem wf_nil_empty {s : QState} (h : WF s []) :
    s.mem = [] ∧ s.last = none ∧ s.first = none := by
  refine ⟨?_, h.chain.nil_none, ?_⟩
  · have : s.mem.map Prod.fst = [] := by rw [h.memKeys]; rfl
    exact List.map_eq_nil_iff.mp this
  · rw [h.firstEq]; rfl

theorem queue_remove_eq {s : QState} {t : Nat} {node : Node} (hl : s.last = some t)
    (hn : lookupNode s.mem t = some node) :
    queue_remove s =
      { s with mem := eraseAddr s.mem t, last := node.next,
               first := if node.next = none then none else s.first,
               freedEntries := s.freedEntries ++ [t],
               freedBufs := s.freedBufs ++ free_entry_bufs node.entry,
               removedEntries := s.removedEntries ++ [node.entry] } := by
  simp [queue_remove, hl, hn]

/-- `queue_remove` on a non-empty well-formed queue removes exactly the head
entry, frees its node (and its buffer when it is a speak entry) exactly
once, and preserves the invariant. -/
theorem wf_remove_cons {s : QState} {a : Nat} {e : Entry} {l : List (Nat × Entry)}
    (h : WF s ((a, e) :: l)) :
    WF (queue_remove s) l ∧
    (queue_remove s).freedEntries = s.freedEntries ++ [a] ∧
    (queue_remove s).freedBufs = s.freedBufs ++ free_entry_bufs e ∧
    (queue_remove s).removedEntries = s.removedEntries ++ [e] ∧
    (queue_remove s).nextAddr = s.nextAddr := by
  obtain ⟨hchain, hkeys, hnd, hfresh, hfirst, hfnd, hflt, hfdj⟩ := h
  have hlast : s.last = some a := hchain.cons_some
  rw [hlast] at hchain
  cases hchain with
  | @cons _ _ nxt _ hlook hrest =>
      rw [queue_remove_eq hlast hlook]
      have hal : a ∉ addrs l := by
        rw [addrs_cons] at hnd
        exact (List.nodup_cons.mp hnd).1
      have hndl : (addrs l).Nodup := by
        rw [addrs_cons] at hnd
        exact (List.nodup_cons.mp hnd).2
      have hamem : a ∈ addrs ((a, e) :: l) := by simp
      refine ⟨⟨?_, ?_, hndl, ?_, ?_, ?_, ?_, ?_⟩, rfl, rfl, rfl, rfl⟩
      · exact hrest.congr fun x hx =>
          lookupNode_eraseAddr_ne fun hv => hal (hv ▸ List.mem_map_of_mem Prod.fst hx)
      · show (eraseAddr s.mem a).map Prod.fst = (addrs l).reverse
        refine eraseAddr_keys ?_ ?_
        · rw [hkeys]
          simp
        · intro hv
          exact hal (List.mem_reverse.mp hv)
      · intro b hb
        show b < s.nextAddr
        exact hfresh _ (by simp [hb])
      · show (if nxt = none then none else s.first) = (addrs l).getLast?
        cases l with
        | nil =>
            have : nxt = none := hrest.nil_none
            simp [this]
        | cons y ys =>
            have hy : nxt = some y.1 := hrest.cons_some
            have hne : addrs (y :: ys) ≠ [] := by simp
            rw [hy]
            simp only [if_neg (Option.some_ne_none y.1)]
            rw [hfirst, addrs_cons, getLast?_cons_of_ne_nil _ hne]
      · show (s.freedEntries ++ [a]).Nodup
        exact nodup_concat_of hfnd (hfdj _ hamem)
      · intro b hb
        show b < s.nextAddr
        rcases List.mem_append.mp hb with hb | hb
        · exact hflt _ hb
        · simp at hb
          subst hb
          exact hfresh _ hamem
      · intro b hb
        show b ∉ s.freedEntries ++ [a]
        intro hv
        rcases List.mem_append.mp hv with hv | hv
        · exact hfdj _ (by simp [hb]) hv
        · simp at hv
          subst hv
          exact hal hb

/-- Buffers that `free_entry` releases across a list of entries. -/
def bufsFreed : List (Nat × Entry) → List Nat
  | [] => []
  | (_, e) :: rest => free_entry_bufs e ++ bufsFreed rest

theorem queue_clear_fuel_last_none {s : QState} (h : s.last = none) :
    ∀ n, queue_clear_fuel n s = s
  | 0 => rfl
  | n + 1 => by simp [queue_clear_fuel, h]

theorem queue_clear_fuel_spec :
    ∀ (l : List (Nat × Entry)) (s : QState) (n : Nat), WF s l → l.length ≤ n →
    WF (queue_clear_fuel n s) [] ∧
    (queue_clear_fuel n s).freedEntries = s.freedEntries ++ addrs l ∧
    (queue_clear_fuel n s).freedBufs = s.freedBufs ++ bufsFreed l ∧
    (queue_clear_fuel n s).removedEntries = s.removedEntries ++ entriesOf l ∧
    (queue_clear_fuel n s).nextAddr = s.nextAddr := by
  intro l
  induction l with
  | nil =>
      intro s n h _
      have hlast : s.last = none := h.chain.nil_none
      rw [queue_clear_fuel_last_none hlast]
      simp [h, bufsFreed]
  | cons x t ih =>
      intro s n h hn
      obtain ⟨a, e⟩ := x
      cases n with
      | zero => simp at hn
      | succ m =>
          have hlast : s.last = some a := h.chain.cons_some
          have hstep : queue_clear_fuel (m + 1) s = queue_clear_fuel m (queue_remove s) := by
            simp [queue_clear_fuel, hlast]
          obtain ⟨hwf, hfe, hfb, hre, hna⟩ := wf_remove_cons h
          have hm : t.length ≤ m := by
            simp at hn
            omega
          obtain ⟨hwf2, hfe2, hfb2, hre2, hna2⟩ := ih (queue_remove s) m hwf hm
          rw [hstep]
          refine ⟨hwf2, ?_, ?_, ?_, ?_⟩






          · rw [hfe2, hfe]
            simp [addrs]
          · rw [hfb2, hfb]
            simp [bufsFreed]
          · rw [hre2, hre]
            simp [entriesOf]
          · rw [hna2, hna]

/-- `queue_clear` on a well-formed queue: every entry is removed and
released, head to tail, leaving the queue in the empty representation. -/
theorem wf_clear {s : QState} {l : List (Nat × Entry)} (h : WF s l) :
    WF (queue_clear s) [] ∧
    (queue_clear s).freedEntries = s.freedEntries ++ addrs l ∧
    (queue_clear s).freedBufs = s.freedBufs ++ bufsFreed l ∧
    (queue_clear s).removedEntries = s.removedEntries ++ entriesOf l ∧
    (queue_clear s).nextAddr = s.nextAddr := by
  have hlen : s.mem.length = l.length := by
    have h1 : (s.mem.map Prod.fst).length = ((addrs l).reverse).length := by
      rw [h.memKeys]
    simpa [addrs] using h1
  have := queue_clear_fuel_spec l s s.mem.length h (by omega)
  simpa [queue_clear] using this

/-- The operations performed on the queue by the producer (`queue_add`) and
the runner (`queue_remove` after a successful dispatch, `queue_clear` under
the stop protocol). -/
inductive Op
  | add (e : Entry)
  | remove
  | clear

def applyOp (s : QState) : Op → QState
  | Op.add e => queue_add s e
  | Op.remove => queue_remove s
  | Op.clear => queue_clear s

def runOpsFrom (s : QState) : List Op → QState
  | [] => s
  | op :: ops => runOpsFrom (applyOp s op) ops

/-- Run a sequence of queue operations starting from the empty queue. -/
def runOps (ops : List Op) : QState := runOpsFrom initQ ops

/-- The entries enqueued by a sequence of operations, in order. -/
def enqueued : List Op → List Entry
  | [] => []
  | Op.add e :: ops => e :: enqueued ops
  | _ :: ops => enqueued ops

/-- Annotate entries with consecutive addresses starting at `i`. -/
def withAddrs : Nat → List Entry → List (Nat × Entry)
  | _, [] => []
  | i, e :: es => (i, e) :: withAddrs (i + 1) es

@[simp] theorem withAddrs_nil (i : Nat) : withAddrs i [] = [] := rfl

@[simp] theorem withAddrs_cons (i : Nat) (e : Entry) (es : List Entry) :
    withAddrs i (e :: es) = (i, e) :: withAddrs (i + 1) es := rfl

theorem withAddrs_concat (e : Entry) :
    ∀ (es : List Entry) (i : Nat),
      withAddrs i (es ++ [e]) = withAddrs i es ++ [(i + es.length, e)] := by
  intro es
  induction es with
  | nil => intro i; simp
  | cons x xs ih =>
      intro i
      simp only [List.cons_append, withAddrs_cons, ih (i + 1), List.length_cons]
      have : i + 1 + xs.length = i + (xs.length + 1) := by omega
      rw [this]

theorem addrs_withAddrs : ∀ (es : List Entry) (i : Nat),
    addrs (withAddrs i es) = List.range' i es.length := by
  intro es
  induction es with
  | nil => intro i; simp
  | cons x xs ih => intro i; simp [List.range'_succ, ih]

theorem entriesOf_withAddrs : ∀ (es : List Entry) (i : Nat),
    entriesOf (withAddrs i es) = es := by
  intro es
  induction es with
  | nil => intro i; rfl
  | cons x xs ih => intro i; simp [ih]

theorem drop_append_singleton {α : Type} (e : α) :
    ∀ (es : List α) (k : Nat), k ≤ es.length →
      (es ++ [e]).drop k = es.drop k ++ [e] := by
  intro es
  induction es with
  | nil =>
      intro k hk
      simp at hk
      simp [hk]
  | cons x xs ih =>
      intro k hk
      cases k with
      | zero => simp
      | succ m =>
          simp only [List.cons_append, List.drop_succ_cons]
          exact ih m (by simpa using hk)

theorem take_append_singleton {α : Type} (e : α) :
    ∀ (es : List α) (k : Nat), k ≤ es.length →
      (es ++ [e]).take k = es.take k := by
  intro es
  induction es with
  | nil =>
      intro k hk
      simp at hk
      simp [hk]
  | cons x xs ih =>
      intro k hk
      cases k with
      | zero => simp
      | succ m =>
          simp only [List.cons_append, List.take_succ_cons]
          rw [ih m (by simpa using hk)]

theorem take_drop_step {α : Type} :
    ∀ (es : List α) (k : Nat) (e0 : α) (rest : List α), es.drop k = e0 :: rest →
      es.take (k + 1) = es.take k ++ [e0] ∧ es.drop (k + 1) = rest := by
  intro es
  induction es with
  | nil =>
      intro k e0 rest h
      simp at h
  | cons x xs ih =>
      intro k e0 rest h
      cases k with
      | zero =>
          simp at h
          obtain ⟨h1, h2⟩ := h
          subst h1
          subst h2
          simp
      | succ m =>
          simp only [List.drop_succ_cons] at h
          obtain ⟨h1, h2⟩ := ih m e0 rest h
          constructor
          · simp only [List.take_succ_cons, h1, List.cons_append]
          · simpa using h2

theorem range_append_range' : ∀ (k m : Nat),
    List.range k ++ List.range' k m = List.range (k + m) := by
  intro k m
  rw [List.range_eq_range', List.range_eq_range', Nat.add_comm k m]
  have h := List.range'_append 0 k m 1
  simpa using h

/-- Relation between a queue state and the full enqueue history `es`: the
first `k` entries have been consumed (in order), the rest are still queued
at consecutive addresses `k, k+1, ...`, and the allocator has handed out
one address per enqueued entry. -/
structure Tracks (s : QState) (es : List Entry) (k : Nat) : Prop where
  hk : k ≤ es.length
  wf : WF s (withAddrs k (es.drop k))
  removed : s.removedEntries = es.take k
  freed : s.freedEntries = List.range k
  next : s.nextAddr = es.length

theorem tracks_init : Tracks initQ [] 0 :=
  ⟨by simp, wf_init, rfl, rfl, rfl⟩

theorem queue_add_ghost (s : QState) (e : Entry) :
    (queue_add s e).nextAddr = s.nextAddr + 1 ∧
    (queue_add s e).removedEntries = s.removedEntries ∧
    (queue_add s e).freedEntries = s.freedEntries := by
  cases hf : s.first <;> simp [queue_add, hf]

theorem tracks_add {s : QState} {es : List Entry} {k : Nat}
    (h : Tracks s es k) (e : Entry) : Tracks (queue_add s e) (es ++ [e]) k := by
  obtain ⟨hk, hwf, hrem, hfr, hna⟩ := h
  obtain ⟨g1, g2, g3⟩ := queue_add_ghost s e
  refine ⟨by simpa using Nat.le_succ_of_le hk, ?_, ?_, ?_, ?_⟩
  · have hw := wf_add hwf e
    have heq : withAddrs k (es.drop k) ++ [(s.nextAddr, e)]
        = withAddrs k ((es ++ [e]).drop k) := by
      rw [drop_append_singleton e es k hk, withAddrs_concat]
      have : k + (es.drop k).length = s.nextAddr := by
        simp [List.length_drop, hna]
        omega
      rw [this]
    rw [heq] at hw
    exact hw
  · rw [g2, hrem, take_append_singleton e es k hk]
  · rw [g3, hfr]
  · rw [g1, hna]
    simp

theorem tracks_remove {s : QState} {es : List Entry} {k : Nat}
    (h : Tracks s es k) : ∃ k2, Tracks (queue_remove s) es k2 := by
  obtain ⟨hk, hwf, hrem, hfr, hna⟩ := h
  cases hd : es.drop k with
  | nil =>
      have hwfnil : WF s [] := by
        rw [hd] at hwf
        simpa using hwf
      have heq : queue_remove s = s := wf_remove_nil hwfnil
      exact ⟨k, hk, by rw [heq]; exact hwf, by rw [heq]; exact hrem,
        by rw [heq]; exact hfr, by rw [heq]; exact hna⟩
  | cons e0 rest =>
      rw [hd] at hwf
      simp only [withAddrs_cons] at hwf
      obtain ⟨ht, hd2⟩ := take_drop_step es k e0 rest hd
      obtain ⟨hwf2, hfe, _hfb, hre, hna2⟩ := wf_remove_cons hwf
      have hklt : k < es.length := by
        have := congrArg List.length hd
        simp [List.length_drop] at this
        omega
      refine ⟨k + 1, by omega, ?_, ?_, ?_, ?_⟩
      · rw [hd2]
        exact hwf2
      · rw [hre, hrem, ht]
      · rw [hfe, hfr, List.range_succ]
      · rw [hna2, hna]

theorem tracks_clear {s : QState} {es : List Entry} {k : Nat}
    (h : Tracks s es k) : Tracks (queue_clear s) es es.length := by
  obtain ⟨hk, hwf, hrem, hfr, hna⟩ := h
  obtain ⟨hwf2, hfe, _hfb, hre, hna2⟩ := wf_clear hwf
  refine ⟨le_refl _, ?_, ?_, ?_, ?_⟩
  · simpa [List.drop_length] using hwf2
  · rw [hre, hrem, entriesOf_withAddrs, List.take_append_drop, List.take_length]
  · rw [hfe, hfr, addrs_withAddrs, List.length_drop, range_append_range']
    have : k + (es.length - k) = es.length := by omega
    rw [this]
  · rw [hna2, hna]

theorem runOpsFrom_tracks : ∀ (ops : List Op) (s : QState) (es : List Entry) (k : Nat),
    Tracks s es k → ∃ k2, Tracks (runOpsFrom s ops) (es ++ enqueued ops) k2 := by
  intro ops
  induction ops with
  | nil =>
      intro s es k h
      exact ⟨k, by simpa [runOpsFrom, enqueued] using h⟩
  | cons op ops ih =>
      intro s es k h
      cases op with
      | add e =>
          have h2 := tracks_add h e
          obtain ⟨k2, hk2⟩ := ih _ (es ++ [e]) k h2
          refine ⟨k2, ?_⟩
          simpa [runOpsFrom, applyOp, enqueued, List.append_assoc] using hk2
      | remove =>
          obtain ⟨k1, h2⟩ := tracks_remove h
          obtain ⟨k2, hk2⟩ := ih _ es k1 h2
          exact ⟨k2, by simpa [runOpsFrom, applyOp, enqueued] using hk2⟩
      | clear =>
          have h2 := tracks_clear h
          obtain ⟨k2, hk2⟩ := ih _ es es.length h2
          exact ⟨k2, by simpa [runOpsFrom, applyOp, enqueued] using hk2⟩

theorem runOps_tracks (ops : List Op) :
    ∃ k, Tracks (runOps ops) (enqueued ops) k := by
  obtain ⟨k, hk⟩ := runOpsFrom_tracks ops initQ [] 0 tracks_init
  exact ⟨k, by simpa using hk⟩

theorem wf_first_none_iff {s : QState} {l : List (Nat × Entry)} (h : WF s l) :
    (s.first = none ↔ s.last = none) := by
  cases l with
  | nil =>
      obtain ⟨_, hl, hf⟩ := wf_nil_empty h
      simp [hl, hf]
  | cons x xs =>
      have hlast : s.last = some x.1 := h.chain.cons_some
      have hne : addrs (x :: xs) ≠ [] := by simp
      obtain ⟨f, hf⟩ := getLast?_some_of_ne_nil hne
      have hfirst : s.first = some f := by rw [h.firstEq, hf]
      simp [hlast, hfirst]

/- ### The engine dispatch of `queue_process_entry` -/

/-- The espeak result values relevant to queue.c: the runner only compares
against `EE_OK`. -/
inductive EspeakError
  | EE_OK | EE_INTERNAL_ERROR | EE_BUFFER_FULL | EE_NOT_FOUND
deriving DecidableEq

/-- One call into the synthesis engine. -/
inductive EngineCall
  | setFrequency (value : Int) (adjust : Adjust)
  | setPitch (value : Int) (adjust : Adjust)
  | setPunctuation (value : Int) (adjust : Adjust)
  | setRate (value : Int) (adjust : Adjust)
  | setVolume (value : Int) (adjust : Adjust)
  | speakText (buf : Nat) (len : Nat)
deriving DecidableEq

/-- The switch of `queue_process_entry` (queue.c lines 102-127): which
engine operation is invoked for an entry.  `none` means no engine call is
made and the local `error` is left unassigned: this happens for
`CMD_SET_VOICE` (`case CMD_SET_VOICE: break;`) and for the `default`
branch. -/
def dispatchCall (e : Entry) : Option EngineCall :=
  match e.cmd with
  | Cmd.setFrequency => some (EngineCall.setFrequency e.value e.adjust)
  | Cmd.setPitch => some (EngineCall.setPitch e.value e.adjust)
  | Cmd.setPunctuation => some (EngineCall.setPunctuation e.value e.adjust)
  | Cmd.setRate => some (EngineCall.setRate e.value e.adjust)
  | Cmd.setVoice => none
  | Cmd.setVolume => some (EngineCall.setVolume e.value e.adjust)
  | Cmd.speakText => some (EngineCall.speakText e.buf e.len)
  | Cmd.other => none

/-- `queue_process_entry` (queue.c lines 95-134), returning the new queue
state and the engine calls made (at most one).  `env` gives the engine's
result for a call.  `junk` models the value of the local variable
`espeak_ERROR error` when no branch of the switch assigned it: the variable
is declared uninitialized, so in the `CMD_SET_VOICE` and `default` cases
the subsequent test `error == EE_OK` reads an indeterminate value.  The
dangling-pointer branch (address not in `mem`) cannot arise from a
well-formed state. -/
def queue_process_entry (env : EngineCall → EspeakError) (junk : EspeakError)
    (s : QState) : QState × List EngineCall :=
  match s.last with
  | none => (s, [])
  | some t =>
      match lookupNode s.mem t with
      | none => (s, [])
      | some node =>
          match dispatchCall node.entry with
          | some c =>
              ((if env c = EspeakError.EE_OK then queue_remove s else s), [c])
          | none =>
              ((if junk = EspeakError.EE_OK then queue_remove s else s), [])

/- ### The must-stop flush block of `espeak_thread` -/

/-- The observable steps of the flush block (queue.c lines 208-215). -/
inductive FlushEv
  | clearQueue | stopSpeech | resetMustStop | signalStopAck
deriving DecidableEq

/-- State visible to the flush block: the queue plus `runner_must_stop`. -/
structure FlushState where
  q : QState
  mustStop : Bool

/-- The body of `if (runner_must_stop) { ... }` in `espeak_thread`
(queue.c lines 208-215), in statement order: `queue_clear(); stop_speech();
runner_must_stop = 0; pthread_cond_signal(&stop_acknowledged);`.  Returns
the new state and the steps in the order they execute. -/
def runner_flush (fs : FlushState) : FlushState × List FlushEv :=
  ({ q := queue_clear fs.q, mustStop := false },
   [FlushEv.clearQueue, FlushEv.stopSpeech, FlushEv.resetMustStop,
    FlushEv.signalStopAck])

/-- Whether the engine-abort step occurs strictly before the queue-clear
step in a flush trace (the ordering the specification asserts). -/
def abortPrecedesClear (evs : List FlushEv) : Bool :=
  match evs.findIdx? (· == FlushEv.stopSpeech),
        evs.findIdx? (· == FlushEv.clearQueue) with
  | some i, some j => decide (i < j)
  | _, _ => false

/- ### Claim theorems: queue operations -/

/-- C2: the queue is FIFO.  For every sequence of operations (enqueues by
the producer, head-removals and clears by the runner) starting from the
empty queue, the entries consumed so far are exactly a prefix of the
entries enqueued so far, in the exact order they were appended, and the
entries still queued are the remaining suffix. -/
theorem fifo_order (ops : List Op) :
    ∃ k, k ≤ (enqueued ops).length ∧
      (runOps ops).removedEntries = (enqueued ops).take k ∧
      WF (runOps ops) (withAddrs k ((enqueued ops).drop k)) := by
  obtain ⟨k, ht⟩ := runOps_tracks ops
  exact ⟨k, ht.hk, ht.removed, ht.wf⟩

/-- C6: `queue_clear` removes and releases every entry from head to tail,
leaving the queue empty; each `CMD_SPEAK_TEXT` entry's payload buffer is
released together with the entry, and no entry address is ever released
twice. -/
theorem clear_releases_all {s : QState} {l : List (Nat × Entry)} (h : WF s l) :
    (queue_clear s).removedEntries = s.removedEntries ++ entriesOf l ∧
    (queue_clear s).freedEntries = s.freedEntries ++ addrs l ∧
    (queue_clear s).freedBufs = s.freedBufs ++ bufsFreed l ∧
    (queue_clear s).freedEntries.Nodup ∧
    (queue_clear s).mem = [] ∧ (queue_clear s).last = none ∧
    (queue_clear s).first = none := by
  obtain ⟨hwf, hfe, hfb, hre, _⟩ := wf_clear h
  obtain ⟨hmem, hlast, hfirst⟩ := wf_nil_empty hwf
  exact ⟨hre, hfe, hfb, hwf.freedNodup, hmem, hlast, hfirst⟩

/-- A speak entry and a parameter entry used as concrete test data. -/
def entryText : Entry :=
  { cmd := Cmd.speakText, value := 0, adjust := Adjust.set, buf := 7, len := 5 }

def entryRate5 : Entry :=
  { cmd := Cmd.setRate, value := 5, adjust := Adjust.set, buf := 0, len := 0 }

def stateC6 : QState := queue_add (queue_add initQ entryText) entryRate5

theorem clear_releases_all_witness :
    (queue_clear stateC6).removedEntries = [entryText, entryRate5] ∧
    (queue_clear stateC6).freedEntries = [0, 1] ∧
    (queue_clear stateC6).freedBufs = [7] ∧
    (queue_clear stateC6).mem = [] := by
  have hwf : WF stateC6 [(0, entryText), (1, entryRate5)] :=
    wf_add (wf_add wf_init entryText) entryRate5
  have h := clear_releases_all hwf
  exact ⟨h.1.trans (by decide), h.2.1.trans (by decide),
    h.2.2.1.trans (by decide), h.2.2.2.2.1⟩

/-- C7: `queue_remove` removes and releases exactly the entry at the head
of the queue, and is a no-op on the empty queue (the state, including the
free log, is unchanged). -/
theorem remove_head_spec {s : QState} {l : List (Nat × Entry)} (h : WF s l) :
    (l = [] → queue_remove s = s) ∧
    ∀ a e t, l = (a, e) :: t →
      WF (queue_remove s) t ∧
      (queue_remove s).removedEntries = s.removedEntries ++ [e] ∧
      (queue_remove s).freedEntries = s.freedEntries ++ [a] ∧
      (queue_remove s).freedBufs = s.freedBufs ++ free_entry_bufs e := by
  constructor
  · intro hl
    subst hl
    exact wf_remove_nil h
  · intro a e t hl
    subst hl
    obtain ⟨hwf, hfe, hfb, hre, _⟩ := wf_remove_cons h
    exact ⟨hwf, hre, hfe, hfb⟩

theorem remove_head_spec_witness :
    queue_remove initQ = initQ ∧
    (queue_remove (queue_add initQ entryText)).removedEntries = [entryText] ∧
    (queue_remove (queue_add initQ entryText)).freedBufs = [7] := by
  have h0 := (remove_head_spec wf_init).1 rfl
  have hwf : WF (queue_add initQ entryText) [(0, entryText)] :=
    wf_add wf_init entryText
  have h1 := (remove_head_spec hwf).2 0 entryText [] rfl
  exact ⟨h0, h1.2.1.trans (by decide), h1.2.2.2.trans (by decide)⟩

/-- C8: representation invariant of the empty queue: after any sequence of
queue operations from the initial state, the head pointer (`last`) is NULL
if and only if the tail pointer (`first`) is NULL. -/
theorem head_null_iff_tail_null (ops : List Op) :
    ((runOps ops).first = none ↔ (runOps ops).last = none) := by
  obtain ⟨k, ht⟩ := runOps_tracks ops
  exact wf_first_none_iff ht.wf

/-- C9: `queue_add` begins with `assert(entry)`: called with a NULL entry
it aborts (no resulting state, the queue is not touched); called with a
valid entry it always succeeds and appends exactly that one entry at the
tail, preserving the invariant. -/
theorem add_checked_spec {s : QState} {l : List (Nat × Entry)} (h : WF s l)
    (e : Entry) :
    queue_add_checked s none = none ∧
    queue_add_checked s (some e) = some (queue_add s e) ∧
    WF (queue_add s e) (l ++ [(s.nextAddr, e)]) :=
  ⟨rfl, rfl, wf_add h e⟩

theorem add_checked_spec_witness :
    queue_add_checked initQ none = none ∧
    queue_add_checked initQ (some entryRate5) = some (queue_add initQ entryRate5) := by
  have h := add_checked_spec wf_init entryRate5
  exact ⟨h.1, h.2.1⟩

/- ### Claim theorems: dispatch and flush -/

/-- A `CMD_SET_VOICE` entry. -/
def voiceEntry : Entry :=
  { cmd := Cmd.setVoice, value := 0, adjust := Adjust.set, buf := 0, len := 0 }

/-- An engine environment that never reports success (it is irrelevant:
for the failing input the engine is never called). -/
def envFail : EngineCall → EspeakError := fun _ => EspeakError.EE_INTERNAL_ERROR

/-- C3 (failing input): dispatching a `CMD_SET_VOICE` entry makes no engine
call at all, yet whether the head entry is removed is decided by the
uninitialized local `error` (modelled by `junk`): with a leftover `EE_OK`
the head is removed, with any other leftover value the queue is unchanged
and the entry is retried forever.  So removal is not determined by "the
dispatched engine operation returned EE_OK" — no operation was
dispatched. -/
theorem set_voice_error_uninitialized :
    (queue_process_entry envFail EspeakError.EE_OK
        (queue_add initQ voiceEntry)).2 = [] ∧
    (queue_process_entry envFail EspeakError.EE_OK
        (queue_add initQ voiceEntry)).1.last = none ∧
    (queue_process_entry envFail EspeakError.EE_INTERNAL_ERROR
        (queue_add initQ voiceEntry)).2 = [] ∧
    (queue_process_entry envFail EspeakError.EE_INTERNAL_ERROR
        (queue_add initQ voiceEntry)).1 = queue_add initQ voiceEntry :=
  ⟨rfl, rfl, rfl, rfl⟩

/-- C3 (positive part, for the kinds that do dispatch an engine call): for
every entry whose switch case assigns `error` — the five parameter setters
and `CMD_SPEAK_TEXT` — the head is removed if and only if the engine call
returned `EE_OK`, and exactly that one call is made. -/
theorem dispatch_remove_iff_ok {s : QState} {a : Nat} {e : Entry}
    {l : List (Nat × Entry)} (h : WF s ((a, e) :: l))
    (env : EngineCall → EspeakError) (junk : EspeakError)
    {c : EngineCall} (hc : dispatchCall e = some c) :
    queue_process_entry env junk s =
      ((if env c = EspeakError.EE_OK then queue_remove s else s), [c]) := by
  have hlast : s.last = some a := h.chain.cons_some
  have hchain := h.chain
  rw [hlast] at hchain
  cases hchain with
  | cons hlook _ =>
      simp [queue_process_entry, hlast, hlook, hc]

def stateD : QState := queue_add initQ entryRate5

theorem dispatch_remove_iff_ok_witness :
    queue_process_entry envFail EspeakError.EE_OK stateD =
      (stateD, [EngineCall.setRate 5 Adjust.set]) := by
  have hwf : WF stateD [(0, entryRate5)] := wf_add wf_init entryRate5
  have hc : dispatchCall entryRate5 = some (EngineCall.setRate 5 Adjust.set) := by
    decide
  have h := dispatch_remove_iff_ok hwf envFail EspeakError.EE_OK hc
  rw [h]
  decide

/-- C1 (counterexample): in the flush block the engine-abort call
`stop_speech()` does NOT precede `queue_clear()`: the code clears the
queue first (queue.c lines 210-211), so the claimed order
engine-abort-then-queue-clear is false already at its first two steps. -/
theorem flush_claim_counterexample :
    (runner_flush { q := initQ, mustStop := true }).2 =
      [FlushEv.clearQueue, FlushEv.stopSpeech, FlushEv.resetMustStop,
       FlushEv.signalStopAck] ∧
    abortPrecedesClear (runner_flush { q := initQ, mustStop := true }).2 = false :=
  ⟨rfl, rfl⟩

/-- C1 (amended): when the runner observes an outstanding must-stop
request, the flush block performs, in this fixed order: queue-clear, then
engine-abort, then must-stop flag reset, then acknowledgment signal; it
leaves the queue empty and the flag cleared. -/
theorem flush_order_spec {fs : FlushState} {l : List (Nat × Entry)}
    (h : WF fs.q l) :
    (runner_flush fs).2 =
      [FlushEv.clearQueue, FlushEv.stopSpeech, FlushEv.resetMustStop,
       FlushEv.signalStopAck] ∧
    (runner_flush fs).1.mustStop = false ∧
    (runner_flush fs).1.q.mem = [] ∧ (runner_flush fs).1.q.last = none := by
  obtain ⟨hwf, _⟩ := wf_clear h
  obtain ⟨hmem, hlast, _⟩ := wf_nil_empty hwf
  exact ⟨rfl, rfl, hmem, hlast⟩

theorem flush_order_spec_witness :
    (runner_flush { q := stateC6, mustStop := true }).2 =
      [FlushEv.clearQueue, FlushEv.stopSpeech, FlushEv.resetMustStop,
       FlushEv.signalStopAck] ∧
    (runner_flush { q := stateC6, mustStop := true }).1.mustStop = false ∧
    (runner_flush { q := stateC6, mustStop := true }).1.q.mem = [] := by
  have hwf : WF stateC6 [(0, entryText), (1, entryRate5)] :=
    wf_add (wf_add wf_init entryText) entryRate5
  have h := @flush_order_spec { q := stateC6, mustStop := true }
    [(0, entryText), (1, entryRate5)] hwf
  exact ⟨h.1, h.2.1, h.2.2.1⟩

/- ### Startup of `espeak_thread` (queue.c lines 170-201, 218) -/

/-- Default voice settings (queue.c lines 28-31). -/
def defaultFrequency : Int := 5

def defaultPitch : Int := 5

def defaultRate : Int := 5

def defaultVolume : Int := 5

/-- The C conversion `(unsigned int) rate` applied to a (possibly negative)
`int`: reduction modulo 2^32. -/
def toUnsigned32 (i : Int) : Nat := (i % (2 ^ 32 : Int)).toNat

/-- The externally visible actions of the startup part of `espeak_thread`. -/
inductive StartupEv
  | selectAudioMode
  | espeakInitialize
  | initAudio (rate : Nat)
  | setVoice (v : String)
  | setFrequency (value : Int) (adjust : Adjust)
  | setPitch (value : Int) (adjust : Adjust)
  | setRate (value : Int) (adjust : Adjust)
  | setVolume (value : Int) (adjust : Adjust)
  | setCapitalsOff
  | enterLoop
  | terminate
deriving DecidableEq

/-- Inputs to `espeak_thread`'s startup: the return value (a sample rate or
a negative error) of `espeak_Initialize`, the return value of `init_audio`,
the global `defaultVoice` string (NULL or set from configuration), and the
value of the global `should_run` flag when the thread starts. -/
structure StartupInput where
  initRate : Int
  audioInitRet : Int
  defaultVoice : Option String
  shouldRun0 : Bool

/-- Straight-line startup of `espeak_thread` (queue.c lines 175-197):
`select_audio_mode(); rate = espeak_Initialize(...); if (rate < 0)
should_run = 0; if (init_audio((unsigned int) rate) < 0) should_run = 0;`
then the one-time voice/frequency/pitch/rate/volume defaults and
`espeak_SetParameter(espeakCAPITALS, 0, 0)`.  Returns the final value of
`should_run` together with the actions performed, in order. -/
def espeak_thread_startup (inp : StartupInput) : Bool × List StartupEv :=
  let sr1 := if inp.initRate < 0 then false else inp.shouldRun0
  let sr2 := if inp.audioInitRet < 0 then false else sr1
  let voiceEvs := match inp.defaultVoice with
    | some v => [StartupEv.setVoice v]
    | none => []
  (sr2,
   [StartupEv.selectAudioMode, StartupEv.espeakInitialize,
    StartupEv.initAudio (toUnsigned32 inp.initRate)] ++ voiceEvs ++
   [StartupEv.setFrequency defaultFrequency Adjust.set,
    StartupEv.setPitch defaultPitch Adjust.set,
    StartupEv.setRate defaultRate Adjust.set,
    StartupEv.setVolume defaultVolume Adjust.set,
    StartupEv.setCapitalsOff])

/-- `espeak_thread` up to either entering the serving loop (queue.c lines
199-201; the loop body itself is modelled separately as a transition
system) or, when `should_run` was cleared, skipping the loop entirely and
calling `espeak_Terminate()` (line 218).  The Bool records whether the
serving loop was entered. -/
def espeak_thread_run (inp : StartupInput) : List StartupEv × Bool :=
  let st := espeak_thread_startup inp
  if st.1 then (st.2 ++ [StartupEv.enterLoop], true)
  else (st.2 ++ [StartupEv.terminate], false)

/-- C5: if engine initialization fails (`espeak_Initialize` returns a
negative rate) or audio-output initialization fails (`init_audio` returns
a negative value), the runner clears `should_run` and never enters its
serving loop: it never reaches the idle wait and never dispatches any
queued entry, proceeding directly to engine termination. -/
theorem init_failure_skips_loop (inp : StartupInput)
    (h : inp.initRate < 0 ∨ inp.audioInitRet < 0) :
    (espeak_thread_startup inp).1 = false ∧
    (espeak_thread_run inp).2 = false ∧
    StartupEv.enterLoop ∉ (espeak_thread_run inp).1 ∧
    (espeak_thread_run inp).1 =
      (espeak_thread_startup inp).2 ++ [StartupEv.terminate] := by
  refine ⟨?_, ?_, ?_, ?_⟩ <;>
    (rcases h with h | h <;> cases hv : inp.defaultVoice <;>
      simp [espeak_thread_run, espeak_thread_startup, h, hv])

theorem init_failure_skips_loop_witness :
    ((-1 : Int) < 0 ∨ (0 : Int) < 0) ∧
    (espeak_thread_run
      { initRate := -1, audioInitRet := 0, defaultVoice := none,
        shouldRun0 := true }).2 = false := by
  have h := init_failure_skips_loop
    { initRate := -1, audioInitRet := 0, defaultVoice := none,
      shouldRun0 := true } (Or.inl (by decide))
  exact ⟨Or.inl (by decide), h.2.1⟩

/-- C10: even when `espeak_Initialize` fails with a negative rate, the
runner still calls `init_audio` with that negative value converted to
`unsigned int` (modulo 2^32), still applies the one-time default voice,
frequency, pitch, rate and volume settings (and disables capitals
announcement), and only then skips the serving loop and terminates. -/
theorem engine_init_failure_still_configures (inp : StartupInput)
    (h : inp.initRate < 0) :
    (espeak_thread_run inp).1 =
      [StartupEv.selectAudioMode, StartupEv.espeakInitialize,
       StartupEv.initAudio (toUnsigned32 inp.initRate)] ++
      (match inp.defaultVoice with
        | some v => [StartupEv.setVoice v]
        | none => []) ++
      [StartupEv.setFrequency defaultFrequency Adjust.set,
       StartupEv.setPitch defaultPitch Adjust.set,
       StartupEv.setRate defaultRate Adjust.set,
       StartupEv.setVolume defaultVolume Adjust.set,
       StartupEv.setCapitalsOff, StartupEv.terminate] ∧
    (espeak_thread_run inp).2 = false := by
  constructor
  · cases hv : inp.defaultVoice <;>
      simp [espeak_thread_run, espeak_thread_startup, h, hv]
  · cases hv : inp.defaultVoice <;>
      simp [espeak_thread_run, espeak_thread_startup, h, hv]

theorem engine_init_failure_still_configures_witness :
    ((-3 : Int) < 0) ∧
    (espeak_thread_run
      { initRate := -3, audioInitRet := 0, defaultVoice := some "en",
        shouldRun0 := true }).1 =
      [StartupEv.selectAudioMode, StartupEv.espeakInitialize,
       StartupEv.initAudio 4294967293, StartupEv.setVoice "en",
       StartupEv.setFrequency 5 Adjust.set, StartupEv.setPitch 5 Adjust.set,
       StartupEv.setRate 5 Adjust.set, StartupEv.setVolume 5 Adjust.set,
       StartupEv.setCapitalsOff, StartupEv.terminate] := by
  have h := engine_init_failure_still_configures
    { initRate := -3, audioInitRet := 0, defaultVoice := some "en",
      shouldRun0 := true } (by decide)
  refine ⟨by decide, h.1.trans ?_⟩
  decide

/- ### Two-thread interleaving model of the stop protocol (C4)

The serving loop of `espeak_thread` (queue.c lines 199-216) interleaved
with the producer thread, which enqueues entries (`queue_add`) and issues a
stop request (`stop_runner`, lines 139-148).  The espeakup program has a
single producer thread, which is also the thread that calls `stop_runner`.

The queue appears here in its abstract form: a list of (id, entry) pairs
with ids handed out in increasing order — justified by the refinement
proved above (`wf_add` appends one fresh address at the tail, `wf_remove_cons`
pops the head, `wf_clear` empties the queue).

Each step is a maximal region of code executed under continuously held
locks, so steps are atomic and the lock variables disappear:
- `queue_guard` is held exactly for the duration of one step, never across
  a step boundary;
- `stop_guard` is held by the producer from the start of `stop_runner`
  until `pthread_cond_wait(&stop_acknowledged, &stop_guard)` releases it,
  which is a single producer step (`requestStop`), and by the runner for
  the duration of the flush block (`flush`), which can only run once the
  producer is blocked in that wait;
- wake-ups from `pthread_cond_wait(&runner_awake, ...)` are
  over-approximated: the runner may wake at any time (a superset of real
  behaviours that includes spurious wake-ups, sound for safety properties);
- `should_run` stays 1: no shutdown request occurs in the scenario. -/

/-- Runner control position. `waiting`: blocked in
`pthread_cond_wait(&runner_awake, &queue_guard)` (line 201).  `inner`:
about to evaluate the inner loop condition (line 203) holding
`queue_guard`.  `engine a e`: inside `queue_process_entry` past the unlock
(line 100), performing the engine call for the head entry `e` at address
`a`. -/
inductive RPC
  | waiting
  | inner
  | engine (a : Nat) (e : Entry)
deriving DecidableEq

/-- Producer control position. `producing`: running normally (may enqueue
or call `stop_runner`).  `waitingAck`: blocked in
`pthread_cond_wait(&stop_acknowledged, &stop_guard)` (line 146).
`returned`: `stop_runner` has returned (line 148). -/
inductive SPC
  | producing | waitingAck | returned
deriving DecidableEq

/-- Observable events of a run. -/
inductive TEv
  | enq (id : Nat)
  | stopRequested
  | dispatch (id : Nat)
  | returned
deriving DecidableEq

/-- Combined state of the two threads and the shared data: the abstract
queue, the allocator counter, `runner_must_stop`, a pending (not yet
consumed) signal on `stop_acknowledged`, both control positions, the ghost
`stopId` (the allocator value at the moment of the stop request) and the
event trace. -/
structure Sys where
  q : List (Nat × Entry)
  nextId : Nat
  mustStop : Bool
  ackPending : Bool
  rpc : RPC
  spc : SPC
  stopId : Option Nat
  trace : List TEv
deriving DecidableEq

def sysInit : Sys :=
  { q := [], nextId := 0, mustStop := false, ackPending := false,
    rpc := RPC.waiting, spc := SPC.producing, stopId := none, trace := [] }

/-- One interleaved atomic step. -/
inductive Step : Sys → Sys → Prop
  /-- Producer: `queue_add` (lines 44-59) of a fresh entry, plus the
  `pthread_cond_signal(&runner_awake)`.  Enabled while the producer is not
  blocked inside `stop_runner`. -/
  | enqueue (s : Sys) (e : Entry) :
      (s.spc = SPC.producing ∨ s.spc = SPC.returned) →
      Step s { s with
        q := s.q ++ [(s.nextId, e)],
        nextId := s.nextId + 1,
        trace := s.trace ++ [TEv.enq s.nextId] }
  /-- Producer: `stop_runner` lines 141-146 — lock `stop_guard`, set
  `runner_must_stop` under `queue_guard`, signal `runner_awake`, and enter
  `pthread_cond_wait(&stop_acknowledged, &stop_guard)` (releasing
  `stop_guard`). -/
  | requestStop (s : Sys) :
      s.spc = SPC.producing →
      Step s { s with
        mustStop := true,
        spc := SPC.waitingAck,
        stopId := some s.nextId,
        trace := s.trace ++ [TEv.stopRequested] }
  /-- Producer: the wait on `stop_acknowledged` returns after the runner's
  signal, and `stop_runner` unlocks `stop_guard` and returns (lines
  146-148). -/
  | ackReturn (s : Sys) :
      s.spc = SPC.waitingAck → s.ackPending = true →
      Step s { s with
        spc := SPC.returned,
        ackPending := false,
        trace := s.trace ++ [TEv.returned] }
  /-- Runner: `pthread_cond_wait(&runner_awake, &queue_guard)` returns
  (line 201), re-acquiring `queue_guard`.  Wake-ups are allowed at any
  time (superset of signalled and spurious wake-ups). -/
  | wake (s : Sys) :
      s.rpc = RPC.waiting →
      Step s { s with rpc := RPC.inner }
  /-- Runner: the inner condition (line 203) is true — queue non-empty and
  no stop pending — so `queue_process_entry` reads the head into `current`
  and releases `queue_guard` (lines 98-100). -/
  | beginDispatch (s : Sys) (a : Nat) (e : Entry) (rest : List (Nat × Entry)) :
      s.rpc = RPC.inner → s.q = (a, e) :: rest → s.mustStop = false →
      Step s { s with rpc := RPC.engine a e }
  /-- Runner: the engine call returns with result `ok`; under `queue_guard`
  the head is removed iff the result was `EE_OK` (lines 129-132), the
  guard is re-acquired for the next inner-condition check (line 205). -/
  | finishDispatch (s : Sys) (a : Nat) (e : Entry) (ok : Bool) :
      s.rpc = RPC.engine a e →
      Step s { s with
        rpc := RPC.inner,
        q := if ok then s.q.tail else s.q,
        trace := s.trace ++ [TEv.dispatch a] }
  /-- Runner: inner loop exits with the queue empty and no stop pending,
  the `if (runner_must_stop)` test (line 208) fails, and the outer loop
  re-enters the wait (line 201). -/
  | innerToWait (s : Sys) :
      s.rpc = RPC.inner → s.q = [] → s.mustStop = false →
      Step s { s with rpc := RPC.waiting }
  /-- Runner: `runner_must_stop` is observed set (line 208); the flush
  block (lines 209-215) locks `stop_guard` (free, because the producer is
  blocked in the acknowledgment wait), clears the queue, aborts engine
  output, resets the flag, unlocks and signals `stop_acknowledged`, and the
  outer loop re-enters the wait. -/
  | flush (s : Sys) :
      s.rpc = RPC.inner → s.mustStop = true →
      Step s { s with
        q := [],
        mustStop := false,
        ackPending := true,
        rpc := RPC.waiting }

/-- Reachable states of the protocol. -/
inductive Reach : Sys → Prop
  | base : Reach sysInit
  | step {s s2 : Sys} : Reach s → Step s s2 → Reach s2

/-- Ids of entries enqueued before the (first) stop request in a trace. -/
def enqsBeforeStop : List TEv → List Nat
  | [] => []
  | TEv.stopRequested :: _ => []
  | TEv.enq id :: rest => id :: enqsBeforeStop rest
  | TEv.dispatch _ :: rest => enqsBeforeStop rest
  | TEv.returned :: rest => enqsBeforeStop rest

/-- The part of a trace after the (first) return of the stop request. -/
def eventsAfterReturn : List TEv → List TEv
  | [] => []
  | TEv.returned :: rest => rest
  | TEv.enq _ :: rest => eventsAfterReturn rest
  | TEv.stopRequested :: rest => eventsAfterReturn rest
  | TEv.dispatch _ :: rest => eventsAfterReturn rest

/-- Ids of entries dispatched to the engine in a trace. -/
def dispatchedIds : List TEv → List Nat
  | [] => []
  | TEv.dispatch id :: rest => id :: dispatchedIds rest
  | TEv.enq _ :: rest => dispatchedIds rest
  | TEv.stopRequested :: rest => dispatchedIds rest
  | TEv.returned :: rest => dispatchedIds rest

@[simp] theorem enqsBeforeStop_nil : enqsBeforeStop [] = [] := rfl

@[simp] theorem enqsBeforeStop_cons_enq (id : Nat) (tr : List TEv) :
    enqsBeforeStop (TEv.enq id :: tr) = id :: enqsBeforeStop tr := rfl

@[simp] theorem enqsBeforeStop_cons_stop (tr : List TEv) :
    enqsBeforeStop (TEv.stopRequested :: tr) = [] := rfl

@[simp] theorem enqsBeforeStop_cons_dispatch (id : Nat) (tr : List TEv) :
    enqsBeforeStop (TEv.dispatch id :: tr) = enqsBeforeStop tr := rfl

@[simp] theorem enqsBeforeStop_cons_returned (tr : List TEv) :
    enqsBeforeStop (TEv.returned :: tr) = enqsBeforeStop tr := rfl

@[simp] theorem eventsAfterReturn_nil : eventsAfterReturn [] = [] := rfl

@[simp] theorem eventsAfterReturn_cons_returned (tr : List TEv) :
    eventsAfterReturn (TEv.returned :: tr) = tr := rfl

@[simp] theorem eventsAfterReturn_cons_enq (id : Nat) (tr : List TEv) :
    eventsAfterReturn (TEv.enq id :: tr) = eventsAfterReturn tr := rfl

@[simp] theorem eventsAfterReturn_cons_stop (tr : List TEv) :
    eventsAfterReturn (TEv.stopRequested :: tr) = eventsAfterReturn tr := rfl

@[simp] theorem eventsAfterReturn_cons_dispatch (id : Nat) (tr : List TEv) :
    eventsAfterReturn (TEv.dispatch id :: tr) = eventsAfterReturn tr := rfl

@[simp] theorem dispatchedIds_nil : dispatchedIds [] = [] := rfl

@[simp] theorem dispatchedIds_cons_dispatch (id : Nat) (tr : List TEv) :
    dispatchedIds (TEv.dispatch id :: tr) = id :: dispatchedIds tr := rfl

@[simp] theorem dispatchedIds_cons_enq (id : Nat) (tr : List TEv) :
    dispatchedIds (TEv.enq id :: tr) = dispatchedIds tr := rfl

@[simp] theorem dispatchedIds_cons_stop (tr : List TEv) :
    dispatchedIds (TEv.stopRequested :: tr) = dispatchedIds tr := rfl

@[simp] theorem dispatchedIds_cons_returned (tr : List TEv) :
    dispatchedIds (TEv.returned :: tr) = dispatchedIds tr := rfl

theorem dispatchedIds_append (tr evs : List TEv) :
    dispatchedIds (tr ++ evs) = dispatchedIds tr ++ dispatchedIds evs := by
  induction tr with
  | nil => rfl
  | cons e rest ih => cases e <;> simp [ih]

theorem enqsBeforeStop_append_of_stop {tr : List TEv}
    (h : TEv.stopRequested ∈ tr) (evs : List TEv) :
    enqsBeforeStop (tr ++ evs) = enqsBeforeStop tr := by
  induction tr with
  | nil => simp at h
  | cons e rest ih =>
      cases e with
      | stopRequested => simp
      | enq id =>
          have h2 : TEv.stopRequested ∈ rest := by simpa using h
          simp [ih h2]
      | dispatch id =>
          have h2 : TEv.stopRequested ∈ rest := by simpa using h
          simp [ih h2]
      | returned =>
          have h2 : TEv.stopRequested ∈ rest := by simpa using h
          simp [ih h2]

theorem enqsBeforeStop_append_enq {tr : List TEv}
    (h : TEv.stopRequested ∉ tr) (id : Nat) :
    enqsBeforeStop (tr ++ [TEv.enq id]) = enqsBeforeStop tr ++ [id] := by
  induction tr with
  | nil => simp
  | cons e rest ih =>
      have h2 : TEv.stopRequested ∉ rest := fun hv => h (List.mem_cons_of_mem _ hv)
      cases e with
      | stopRequested => exact absurd (List.mem_cons_self _ _) h
      | enq id2 => simp [ih h2]
      | dispatch id2 => simp [ih h2]
      | returned => simp [ih h2]

theorem enqsBeforeStop_append_nonenq (tr : List TEv) (ev : TEv)
    (h : ∀ id, ev ≠ TEv.enq id) :
    enqsBeforeStop (tr ++ [ev]) = enqsBeforeStop tr := by
  induction tr with
  | nil =>
      cases ev with
      | enq id => exact absurd rfl (h id)
      | stopRequested => rfl
      | dispatch id => rfl
      | returned => rfl
  | cons e rest ih => cases e <;> simp [ih]

theorem eventsAfterReturn_eq_nil {tr : List TEv} (h : TEv.returned ∉ tr) :
    eventsAfterReturn tr = [] := by
  induction tr with
  | nil => rfl
  | cons e rest ih =>
      have h2 : TEv.returned ∉ rest := fun hv => h (List.mem_cons_of_mem _ hv)
      cases e with
      | returned => exact absurd (List.mem_cons_self _ _) h
      | enq id => simp [ih h2]
      | stopRequested => simp [ih h2]
      | dispatch id => simp [ih h2]

theorem eventsAfterReturn_append_of_ret {tr : List TEv} (h : TEv.returned ∈ tr)
    (evs : List TEv) :
    eventsAfterReturn (tr ++ evs) = eventsAfterReturn tr ++ evs := by
  induction tr with
  | nil => simp at h
  | cons e rest ih =>
      cases e with
      | returned => simp
      | enq id =>
          have h2 : TEv.returned ∈ rest := by simpa using h
          simp [ih h2]
      | stopRequested =>
          have h2 : TEv.returned ∈ rest := by simpa using h
          simp [ih h2]
      | dispatch id =>
          have h2 : TEv.returned ∈ rest := by simpa using h
          simp [ih h2]

theorem enq_mem_of_mem_enqsBeforeStop {tr : List TEv} {id : Nat}
    (h : id ∈ enqsBeforeStop tr) : TEv.enq id ∈ tr := by
  induction tr with
  | nil => simp at h
  | cons e rest ih =>
      cases e with
      | enq id2 =>
          rcases (by simpa using h : id = id2 ∨ id ∈ enqsBeforeStop rest) with h2 | h2
          · simp [h2]
          · exact List.mem_cons_of_mem _ (ih h2)
      | stopRequested => simp at h
      | dispatch id2 => exact List.mem_cons_of_mem _ (ih (by simpa using h))
      | returned => exact List.mem_cons_of_mem _ (ih (by simpa using h))

/-- Inductive invariant of the stop protocol.  `stopId = some k` records
that the stop request was issued when the allocator stood at `k`: entries
enqueued before the request have ids `< k`, entries enqueued after it have
ids `≥ k`. -/
structure Inv (s : Sys) : Prop where
  qlt : ∀ x ∈ s.q, x.1 < s.nextId
  enqlt : ∀ id, TEv.enq id ∈ s.trace → id < s.nextId
  mustStopSpc : s.mustStop = true → s.spc = SPC.waitingAck ∧ s.ackPending = false
  ackSpc : s.ackPending = true →
    s.spc = SPC.waitingAck ∧ s.mustStop = false ∧ s.q = []
  stopIdNone : s.spc = SPC.producing ↔ s.stopId = none
  stopReqTrace : TEv.stopRequested ∈ s.trace ↔ s.spc ≠ SPC.producing
  retTrace : TEv.returned ∈ s.trace ↔ s.spc = SPC.returned
  stopIdLe : ∀ k, s.stopId = some k → k ≤ s.nextId
  enqsBefore : ∀ k, s.stopId = some k → ∀ id ∈ enqsBeforeStop s.trace, id < k
  dispAfterRet : ∀ k, s.stopId = some k →
    ∀ id ∈ dispatchedIds (eventsAfterReturn s.trace), k ≤ id
  qPostStop : s.spc = SPC.returned → ∀ k, s.stopId = some k → ∀ x ∈ s.q, k ≤ x.1
  engineHead : ∀ a e, s.rpc = RPC.engine a e → ∃ rest, s.q = (a, e) :: rest

theorem inv_init : Inv sysInit := by
  refine ⟨?_, ?_, ?_, ?_, ?_, ?_, ?_, ?_, ?_, ?_, ?_, ?_⟩ <;> simp [sysInit]

theorem inv_enqueue {s : Sys} (hi : Inv s) (e : Entry)
    (henabled : s.spc = SPC.producing ∨ s.spc = SPC.returned) :
    Inv { s with
      q := s.q ++ [(s.nextId, e)],
      nextId := s.nextId + 1,
      trace := s.trace ++ [TEv.enq s.nextId] } := by
  have hms : s.mustStop = false := by
    cases hmv : s.mustStop
    · rfl
    · obtain ⟨hspc, _⟩ := hi.mustStopSpc hmv
      rcases henabled with h | h <;> simp [h] at hspc
  have hap : s.ackPending = false := by
    cases hav : s.ackPending
    · rfl
    · obtain ⟨hspc, _, _⟩ := hi.ackSpc hav
      rcases henabled with h | h <;> simp [h] at hspc
  refine ⟨?_, ?_, ?_, ?_, ?_, ?_, ?_, ?_, ?_, ?_, ?_, ?_⟩
  · intro x hx
    show x.1 < s.nextId + 1
    rcases List.mem_append.mp hx with hx | hx
    · have := hi.qlt x hx
      omega
    · simp at hx
      subst hx
      simp
  · intro id hid
    show id < s.nextId + 1
    rcases List.mem_append.mp hid with hid | hid
    · have := hi.enqlt id hid
      omega
    · simp at hid
      omega
  · intro hmv
    exact absurd hmv (by simp [hms])
  · intro hav
    exact absurd hav (by simp [hap])
  · exact hi.stopIdNone
  · show TEv.stopRequested ∈ s.trace ++ [TEv.enq s.nextId] ↔ s.spc ≠ SPC.producing
    rw [← hi.stopReqTrace]
    simp
  · show TEv.returned ∈ s.trace ++ [TEv.enq s.nextId] ↔ s.spc = SPC.returned
    rw [← hi.retTrace]
    simp
  · intro k hk
    show k ≤ s.nextId + 1
    have := hi.stopIdLe k hk
    omega
  · intro k hk id hid
    have hspc : s.spc ≠ SPC.producing := by
      intro hv
      rw [hi.stopIdNone.mp hv] at hk
      cases hk
    have hstop : TEv.stopRequested ∈ s.trace := hi.stopReqTrace.mpr hspc
    rw [show ({ s with
          q := s.q ++ [(s.nextId, e)],
          nextId := s.nextId + 1,
          trace := s.trace ++ [TEv.enq s.nextId] } : Sys).trace
        = s.trace ++ [TEv.enq s.nextId] from rfl,
      enqsBeforeStop_append_of_stop hstop] at hid
    exact hi.enqsBefore k hk id hid
  · intro k hk id hid
    have hspc : s.spc ≠ SPC.producing := by
      intro hv
      rw [hi.stopIdNone.mp hv] at hk
      cases hk
    show k ≤ id
    by_cases hret : TEv.returned ∈ s.trace
    · rw [show ({ s with
            q := s.q ++ [(s.nextId, e)],
            nextId := s.nextId + 1,
            trace := s.trace ++ [TEv.enq s.nextId] } : Sys).trace
          = s.trace ++ [TEv.enq s.nextId] from rfl,
        eventsAfterReturn_append_of_ret hret, dispatchedIds_append] at hid
      simp at hid
      exact hi.dispAfterRet k hk id hid
    · have hret2 : TEv.returned ∉ s.trace ++ [TEv.enq s.nextId] := by
        intro hv
        rcases List.mem_append.mp hv with hv | hv
        · exact hret hv
        · simp at hv
      rw [show ({ s with
            q := s.q ++ [(s.nextId, e)],
            nextId := s.nextId + 1,
            trace := s.trace ++ [TEv.enq s.nextId] } : Sys).trace
          = s.trace ++ [TEv.enq s.nextId] from rfl,
        eventsAfterReturn_eq_nil hret2] at hid
      simp at hid
  · intro hspc k hk x hx
    show k ≤ x.1
    rcases List.mem_append.mp hx with hx | hx
    · exact hi.qPostStop hspc k hk x hx
    · simp at hx
      subst hx
      exact hi.stopIdLe k hk
  · intro a e2 hrpc
    obtain ⟨rest, hq⟩ := hi.engineHead a e2 hrpc
    exact ⟨rest ++ [(s.nextId, e)], by
      show s.q ++ [(s.nextId, e)] = (a, e2) :: (rest ++ [(s.nextId, e)])
      rw [hq]
      simp⟩

theorem inv_requestStop {s : Sys} (hi : Inv s)
    (henabled : s.spc = SPC.producing) :
    Inv { s with
      mustStop := true,
      spc := SPC.waitingAck,
      stopId := some s.nextId,
      trace := s.trace ++ [TEv.stopRequested] } := by
  have hap : s.ackPending = false := by
    cases hav : s.ackPending
    · rfl
    · obtain ⟨hspc, _, _⟩ := hi.ackSpc hav
      simp [henabled] at hspc
  have hnostop : TEv.stopRequested ∉ s.trace := by
    rw [hi.stopReqTrace]
    simp [henabled]
  have hnoret : TEv.returned ∉ s.trace := by
    rw [hi.retTrace]
    simp [henabled]
  refine ⟨?_, ?_, ?_, ?_, ?_, ?_, ?_, ?_, ?_, ?_, ?_, ?_⟩
  · exact fun x hx => hi.qlt x hx
  · intro id hid
    show id < s.nextId
    have hid2 : TEv.enq id ∈ s.trace ++ [TEv.stopRequested] := hid
    rcases List.mem_append.mp hid2 with hid3 | hid3
    · exact hi.enqlt id hid3
    · simp at hid3
  · intro _
    exact ⟨rfl, hap⟩
  · intro hav
    exact absurd hav (by simp [hap])
  · show SPC.waitingAck = SPC.producing ↔ some s.nextId = none
    simp
  · show TEv.stopRequested ∈ s.trace ++ [TEv.stopRequested] ↔
      SPC.waitingAck ≠ SPC.producing
    simp
  · show TEv.returned ∈ s.trace ++ [TEv.stopRequested] ↔
      SPC.waitingAck = SPC.returned
    simp [hnoret]
  · intro k hk
    show k ≤ s.nextId
    have hk2 : some s.nextId = some k := hk
    injection hk2 with hk3
    omega
  · intro k hk id hid
    have hk2 : some s.nextId = some k := hk
    injection hk2 with hk3
    have hid2 : id ∈ enqsBeforeStop (s.trace ++ [TEv.stopRequested]) := hid
    rw [enqsBeforeStop_append_nonenq s.trace TEv.stopRequested
      (by intro id2; simp)] at hid2
    have := hi.enqlt id (enq_mem_of_mem_enqsBeforeStop hid2)
    omega
  · intro k hk id hid
    have hret2 : TEv.returned ∉ s.trace ++ [TEv.stopRequested] := by
      intro hv
      rcases List.mem_append.mp hv with hv | hv
      · exact hnoret hv
      · simp at hv
    have hid2 : id ∈ dispatchedIds
        (eventsAfterReturn (s.trace ++ [TEv.stopRequested])) := hid
    rw [eventsAfterReturn_eq_nil hret2] at hid2
    simp at hid2
  · intro hspc
    have hspc2 : SPC.waitingAck = SPC.returned := hspc
    simp at hspc2
  · intro a e2 hrpc
    exact hi.engineHead a e2 hrpc

theorem inv_ackReturn {s : Sys} (hi : Inv s)
    (henabled : s.spc = SPC.waitingAck) (hack : s.ackPending = true) :
    Inv { s with
      spc := SPC.returned,
      ackPending := false,
      trace := s.trace ++ [TEv.returned] } := by
  obtain ⟨_, hms, hq⟩ := hi.ackSpc hack
  have hstop : TEv.stopRequested ∈ s.trace := by
    rw [hi.stopReqTrace, henabled]
    simp
  have hnoret : TEv.returned ∉ s.trace := by
    rw [hi.retTrace, henabled]
    simp
  have hstopId : s.stopId ≠ none := by
    intro hv
    have := hi.stopIdNone.mpr hv
    simp [henabled] at this
  refine ⟨?_, ?_, ?_, ?_, ?_, ?_, ?_, ?_, ?_, ?_, ?_, ?_⟩
  · exact fun x hx => hi.qlt x hx
  · intro id hid
    show id < s.nextId
    have hid2 : TEv.enq id ∈ s.trace ++ [TEv.returned] := hid
    rcases List.mem_append.mp hid2 with hid3 | hid3
    · exact hi.enqlt id hid3
    · simp at hid3
  · intro hmv
    exact absurd hmv (by simp [hms])
  · intro hav
    have hav2 : false = true := hav
    simp at hav2
  · show SPC.returned = SPC.producing ↔ s.stopId = none
    simp [hstopId]
  · show TEv.stopRequested ∈ s.trace ++ [TEv.returned] ↔
      SPC.returned ≠ SPC.producing
    simp [hstop]
  · show TEv.returned ∈ s.trace ++ [TEv.returned] ↔ SPC.returned = SPC.returned
    simp
  · exact fun k hk => hi.stopIdLe k hk
  · intro k hk id hid
    have hid2 : id ∈ enqsBeforeStop (s.trace ++ [TEv.returned]) := hid
    rw [enqsBeforeStop_append_of_stop hstop] at hid2
    exact hi.enqsBefore k hk id hid2
  · intro k hk id hid
    have hret2 : TEv.returned ∉ s.trace ++ [TEv.returned] ∨ True := Or.inr trivial
    have hid2 : id ∈ dispatchedIds
        (eventsAfterReturn (s.trace ++ [TEv.returned])) := hid
    have hafter : eventsAfterReturn (s.trace ++ [TEv.returned]) = [] := by
      have h1 : TEv.returned ∉ s.trace ++ [TEv.returned] → False := by
        intro hv
        exact hv (by simp)
      clear h1
      revert hnoret
      generalize s.trace = tr
      intro hnr
      induction tr with
      | nil => rfl
      | cons ev rest ih =>
          have hnr2 : TEv.returned ∉ rest := fun hv => hnr (List.mem_cons_of_mem _ hv)
          cases ev with
          | returned => exact absurd (List.mem_cons_self _ _) hnr
          | enq id3 => simpa using ih hnr2
          | stopRequested => simpa using ih hnr2
          | dispatch id3 => simpa using ih hnr2
    rw [hafter] at hid2
    simp at hid2
  · intro _ k hk x hx
    show k ≤ x.1
    have hx2 : x ∈ s.q := hx
    rw [hq] at hx2
    simp at hx2
  · intro a e2 hrpc
    exact hi.engineHead a e2 hrpc

theorem inv_wake {s : Sys} (hi : Inv s) (_henabled : s.rpc = RPC.waiting) :
    Inv { s with rpc := RPC.inner } := by
  refine ⟨hi.qlt, hi.enqlt, hi.mustStopSpc, hi.ackSpc, hi.stopIdNone,
    hi.stopReqTrace, hi.retTrace, hi.stopIdLe, hi.enqsBefore, hi.dispAfterRet,
    hi.qPostStop, ?_⟩
  intro a e hrpc
  have h2 : RPC.inner = RPC.engine a e := hrpc
  simp at h2

theorem inv_beginDispatch {s : Sys} (hi : Inv s) {a : Nat} {e : Entry}
    {rest : List (Nat × Entry)} (_henabled : s.rpc = RPC.inner)
    (hq : s.q = (a, e) :: rest) (_hms : s.mustStop = false) :
    Inv { s with rpc := RPC.engine a e } := by
  refine ⟨hi.qlt, hi.enqlt, hi.mustStopSpc, hi.ackSpc, hi.stopIdNone,
    hi.stopReqTrace, hi.retTrace, hi.stopIdLe, hi.enqsBefore, hi.dispAfterRet,
    hi.qPostStop, ?_⟩
  intro a2 e2 hrpc
  have h2 : RPC.engine a e = RPC.engine a2 e2 := hrpc
  injection h2 with h3 h4
  subst h3
  subst h4
  exact ⟨rest, hq⟩

theorem inv_innerToWait {s : Sys} (hi : Inv s) (_henabled : s.rpc = RPC.inner) :
    Inv { s with rpc := RPC.waiting } := by
  refine ⟨hi.qlt, hi.enqlt, hi.mustStopSpc, hi.ackSpc, hi.stopIdNone,
    hi.stopReqTrace, hi.retTrace, hi.stopIdLe, hi.enqsBefore, hi.dispAfterRet,
    hi.qPostStop, ?_⟩
  intro a e hrpc
  have h2 : RPC.waiting = RPC.engine a e := hrpc
  simp at h2

theorem inv_finishDispatch {s : Sys} (hi : Inv s) {a : Nat} {e : Entry}
    (ok : Bool) (henabled : s.rpc = RPC.engine a e) :
    Inv { s with
      rpc := RPC.inner,
      q := if ok then s.q.tail else s.q,
      trace := s.trace ++ [TEv.dispatch a] } := by
  obtain ⟨rest, hq⟩ := hi.engineHead a e henabled
  have hsub : ∀ x, x ∈ (if ok then s.q.tail else s.q) → x ∈ s.q := by
    intro x hx
    cases ok with
    | false => simpa using hx
    | true =>
        simp only [if_pos rfl] at hx
        exact List.mem_of_mem_tail hx
  have hnonempty : s.q ≠ [] := by
    rw [hq]
    simp
  have hap : s.ackPending = false := by
    cases hav : s.ackPending
    · rfl
    · obtain ⟨_, _, hqnil⟩ := hi.ackSpc hav
      exact absurd hqnil hnonempty
  refine ⟨?_, ?_, ?_, ?_, ?_, ?_, ?_, ?_, ?_, ?_, ?_, ?_⟩
  · intro x hx
    exact hi.qlt x (hsub x hx)
  · intro id hid
    show id < s.nextId
    have hid2 : TEv.enq id ∈ s.trace ++ [TEv.dispatch a] := hid
    rcases List.mem_append.mp hid2 with hid3 | hid3
    · exact hi.enqlt id hid3
    · simp at hid3
  · intro hmv
    exact hi.mustStopSpc hmv |>.imp id (fun _ => hap)
  · intro hav
    exact absurd hav (by simp [hap])
  · exact hi.stopIdNone
  · show TEv.stopRequested ∈ s.trace ++ [TEv.dispatch a] ↔ s.spc ≠ SPC.producing
    rw [← hi.stopReqTrace]
    simp
  · show TEv.returned ∈ s.trace ++ [TEv.dispatch a] ↔ s.spc = SPC.returned
    rw [← hi.retTrace]
    simp
  · exact hi.stopIdLe
  · intro k hk id hid
    have hspc : s.spc ≠ SPC.producing := by
      intro hv
      rw [hi.stopIdNone.mp hv] at hk
      cases hk
    have hstop : TEv.stopRequested ∈ s.trace := hi.stopReqTrace.mpr hspc
    have hid2 : id ∈ enqsBeforeStop (s.trace ++ [TEv.dispatch a]) := hid
    rw [enqsBeforeStop_append_of_stop hstop] at hid2
    exact hi.enqsBefore k hk id hid2
  · intro k hk id hid
    show k ≤ id
    have hid2 : id ∈ dispatchedIds
        (eventsAfterReturn (s.trace ++ [TEv.dispatch a])) := hid
    by_cases hret : TEv.returned ∈ s.trace
    · rw [eventsAfterReturn_append_of_ret hret, dispatchedIds_append] at hid2
      rcases List.mem_append.mp hid2 with hid3 | hid3
      · exact hi.dispAfterRet k hk id hid3
      · simp at hid3
        have hspcret : s.spc = SPC.returned := hi.retTrace.mp hret
        have hmem : (a, e) ∈ s.q := by
          rw [hq]
          simp
        have := hi.qPostStop hspcret k hk (a, e) hmem
        omega
    · have hret2 : TEv.returned ∉ s.trace ++ [TEv.dispatch a] := by
        intro hv
        rcases List.mem_append.mp hv with hv | hv
        · exact hret hv
        · simp at hv
      rw [eventsAfterReturn_eq_nil hret2] at hid2
      simp at hid2
  · intro hspc k hk x hx
    exact hi.qPostStop hspc k hk x (hsub x hx)
  · intro a2 e2 hrpc
    have h2 : RPC.inner = RPC.engine a2 e2 := hrpc
    simp at h2

theorem inv_flush {s : Sys} (hi : Inv s) (_henabled : s.rpc = RPC.inner)
    (hms : s.mustStop = true) :
    Inv { s with
      q := [],
      mustStop := false,
      ackPending := true,
      rpc := RPC.waiting } := by
  obtain ⟨hspc, _⟩ := hi.mustStopSpc hms
  refine ⟨?_, hi.enqlt, ?_, ?_, hi.stopIdNone, hi.stopReqTrace, hi.retTrace,
    hi.stopIdLe, hi.enqsBefore, hi.dispAfterRet, ?_, ?_⟩
  · intro x hx
    simp at hx
  · intro hmv
    have h2 : false = true := hmv
    simp at h2
  · intro _
    exact ⟨hspc, rfl, rfl⟩
  · intro _ k _ x hx
    have hx2 : x ∈ ([] : List (Nat × Entry)) := hx
    simp at hx2
  · intro a e hrpc
    have h2 : RPC.waiting = RPC.engine a e := hrpc
    simp at h2

theorem inv_step {s s2 : Sys} (hi : Inv s) (hs : Step s s2) : Inv s2 := by
  cases hs with
  | enqueue e hen => exact inv_enqueue hi e hen
  | requestStop hen => exact inv_requestStop hi hen
  | ackReturn hen hack => exact inv_ackReturn hi hen hack
  | wake hen => exact inv_wake hi hen
  | beginDispatch a e rest hen hq hms => exact inv_beginDispatch hi hen hq hms
  | finishDispatch a e ok hen => exact inv_finishDispatch hi ok hen
  | innerToWait hen _ _ => exact inv_innerToWait hi hen
  | flush hen hms => exact inv_flush hi hen hms

theorem reach_inv {s : Sys} (h : Reach s) : Inv s := by
  induction h with
  | base => exact inv_init
  | step _ hs ih => exact inv_step ih hs

/-- C4: stop completeness.  (i) At the moment `stop_runner` returns — the
step taking the producer from the acknowledgment wait to `returned` — the
queue is empty and the must-stop flag is cleared.  (ii) In every reachable
state of the protocol, no entry that was enqueued before the stop request
is dispatched to the engine after the stop request returned. -/
theorem stop_completeness {s : Sys} (h : Reach s) :
    (∀ s2, Step s s2 → s.spc = SPC.waitingAck → s2.spc = SPC.returned →
      s2.q = [] ∧ s2.mustStop = false) ∧
    (∀ id, id ∈ enqsBeforeStop s.trace →
      id ∉ dispatchedIds (eventsAfterReturn s.trace)) := by
  have hi := reach_inv h
  constructor
  · intro s2 hstep hwait hret
    cases hstep with
    | enqueue e hen =>
        rcases hen with hv | hv <;> rw [hwait] at hv <;> simp at hv
    | requestStop hen =>
        rw [hwait] at hen
        simp at hen
    | ackReturn hen hack =>
        obtain ⟨_, hms, hq⟩ := hi.ackSpc hack
        exact ⟨hq, hms⟩
    | wake hen =>
        have hret2 : s.spc = SPC.returned := hret
        rw [hwait] at hret2
        simp at hret2
    | beginDispatch a e rest hen hq hms =>
        have hret2 : s.spc = SPC.returned := hret
        rw [hwait] at hret2
        simp at hret2
    | finishDispatch a e ok hen =>
        have hret2 : s.spc = SPC.returned := hret
        rw [hwait] at hret2
        simp at hret2
    | innerToWait hen hq hms =>
        have hret2 : s.spc = SPC.returned := hret
        rw [hwait] at hret2
        simp at hret2
    | flush hen hms =>
        have hret2 : s.spc = SPC.returned := hret
        rw [hwait] at hret2
        simp at hret2
  · intro id hin hdisp
    cases hkv : s.stopId with
    | none =>
        have hspc : s.spc = SPC.producing := hi.stopIdNone.mpr hkv
        have hret : TEv.returned ∉ s.trace := by
          rw [hi.retTrace, hspc]
          simp
        rw [eventsAfterReturn_eq_nil hret] at hdisp
        simp at hdisp
    | some k =>
        have h1 := hi.enqsBefore k hkv id hin
        have h2 := hi.dispAfterRet k hkv id hdisp
        omega

/-- The final state of a concrete run: enqueue one entry, request a stop,
let the runner wake and flush, and let the stop request return. -/
def sysStar : Sys :=
  { q := [], nextId := 1, mustStop := false, ackPending := false,
    rpc := RPC.waiting, spc := SPC.returned, stopId := some 1,
    trace := [TEv.enq 0, TEv.stopRequested, TEv.returned] }

/-- The state of the same run just before the stop request returns. -/
def sysAck : Sys :=
  { q := [], nextId := 1, mustStop := false, ackPending := true,
    rpc := RPC.waiting, spc := SPC.waitingAck, stopId := some 1,
    trace := [TEv.enq 0, TEv.stopRequested] }

theorem stop_completeness_witness :
    sysStar.q = [] ∧ sysStar.mustStop = false ∧
    (0 : Nat) ∈ enqsBeforeStop sysStar.trace ∧
    (0 : Nat) ∉ dispatchedIds (eventsAfterReturn sysStar.trace) := by
  have h1 : Reach sysInit := Reach.base
  have h2 := Reach.step h1 (Step.enqueue sysInit entryRate5 (Or.inl rfl))
  have h3 := Reach.step h2 (Step.requestStop _ rfl)
  have h4 := Reach.step h3 (Step.wake _ rfl)
  have h5 : Reach sysAck := Reach.step h4 (Step.flush _ rfl rfl)
  have hstep : Step sysAck sysStar := Step.ackReturn sysAck rfl rfl
  have hpart1 := (stop_completeness h5).1 sysStar hstep rfl rfl
  have h6 : Reach sysStar := Reach.step h5 hstep
  have hpart2 := (stop_completeness h6).2 0 (by decide)
  exact ⟨hpart1.1, hpart1.2, by decide, hpart2⟩

end Espeakup
